import Mathlib

/-!
Shallow embedding of the NuttX pseudo-filesystem name resolver
(`fs/inode/fs_inodesearch.c`) and of `pthread_condattr_init`
(`libs/libc/pthread/pthread_condattr_init.c`), with the softlink feature
(CONFIG_PSEUDOFS_SOFTLINKS) enabled.

C strings are modelled as NUL-free byte lists (`List Nat`, bytes unsigned,
the NUL terminator is the end of the list).  Pointer-valued out-parameters
are modelled as optional cells: `none` is a NULL pointer (the out-parameter
was not requested), `some v` is a supplied cell currently holding `v`.
The global `g_root_inode` becomes an explicit `root : Option Inode`
parameter.  The mutually recursive walkers are given a `fuel` parameter,
decremented at every call; a `none` result means the computation was not
finished within `fuel` steps, so a result that is `none` for every fuel is a
genuine non-terminating run of the C code.
-/

/-- Kind of an inode: ordinary node, mountpoint, or softlink holding the
NUL-terminated absolute target path (`u.i_link`). -/
inductive IKind where
  | normal
  | mountpt
  | softlink (target : List Nat)
deriving DecidableEq

/-- A pseudo-filesystem inode: `i_name` (NULL or a byte string), kind flags,
`i_child` and `i_peer` pointers. -/
inductive Inode where
  | mk (name : Option (List Nat)) (kind : IKind)
       (child : Option Inode) (peer : Option Inode)

/-- Equality test on inodes (standing in for the C pointer comparison
`newnode != node`; in the embedding nodes are compared as values). -/
def ibeq : Inode → Inode → Bool
  | .mk n1 k1 c1 p1, .mk n2 k2 c2 p2 =>
    decide (n1 = n2) && decide (k1 = k2) &&
    (match c1, c2 with
     | none, none => true
     | some a, some b => ibeq a b
     | _, _ => false) &&
    (match p1, p2 with
     | none, none => true
     | some a, some b => ibeq a b
     | _, _ => false)

/-- Accessor for `node->i_name`. -/
def Inode.i_name : Inode → Option (List Nat)
  | .mk n _ _ _ => n

/-- The kind flags of a node. -/
def Inode.kind : Inode → IKind
  | .mk _ k _ _ => k

/-- Accessor for `node->i_child`. -/
def Inode.i_child : Inode → Option Inode
  | .mk _ _ c _ => c

/-- Accessor for `node->i_peer`. -/
def Inode.i_peer : Inode → Option Inode
  | .mk _ _ _ p => p

/-- Predicate `INODE_IS_MOUNTPT(node)`. -/
def Inode.isMountpt (n : Inode) : Bool :=
  match n.kind with
  | .mountpt => true
  | _ => false

/-- Predicate `INODE_IS_SOFTLINK(node)`. -/
def Inode.isSoftlink (n : Inode) : Bool :=
  match n.kind with
  | .softlink _ => true
  | _ => false

/-- Accessor for `node->u.i_link` (meaningful only for softlinks). -/
def Inode.i_link (n : Inode) : List Nat :=
  match n.kind with
  | .softlink t => t
  | _ => []

/-- The byte value of the path delimiter character. -/
def slash : Nat := 47

/-- The main loop of `_inode_compare`: three-way comparison of the find name
(a path cursor, terminated by NUL or a slash) against a node name
(NUL-terminated), both strings being present. -/
def cmp_core : List Nat → List Nat → Int
  | fname, nname =>
    match nname, fname with
    | [], [] => 0
    | [], f :: _ => if f = slash then 0 else 1
    | _ :: _, [] => -1
    | n :: ntail, f :: ftail =>
      if f = slash then -1
      else if n < f then 1
      else if f < n then -1
      else cmp_core ftail ntail

/-- Embedding of `_inode_compare(fname, node)`: the NULL checks on `node->i_name` and on
`fname`, then the main comparison loop. -/
def inode_compare (fname : Option (List Nat)) (node : Inode) : Int :=
  match node.i_name with
  | none => 1
  | some nname =>
    match fname with
    | none => -1
    | some fn => cmp_core fn nname

/-- Embedding of `inode_nextname(name)`: skip up to the next NUL or slash; if a slash was
found, skip exactly one slash. -/
def inode_nextname : List Nat → List Nat
  | [] => []
  | c :: rest => if c = slash then rest else inode_nextname rest

/-- Constant `SYMLOOP_MAX` (NuttX `_POSIX_SYMLOOP_MAX`). -/
def SYMLOOP_MAX : Nat := 8

/-- Outcome of the main walker loop of `inode_search_nofollow`: the final
`node`, `name` cursor, `left` and `above` locals, and the relpath cell. -/
structure LoopOut where
  node : Option Inode
  name : List Nat
  left : Option Inode
  above : Option Inode
  rel : Option (List Nat)

/-- Outcome of `inode_search_nofollow` / `inode_search`: returned node, the
final `*path` cursor, and the three out-parameter cells after the call. -/
structure SRes where
  node : Option Inode
  path : List Nat
  peerOut : Option (Option Inode)
  parentOut : Option (Option Inode)
  relOut : Option (List Nat)

/-- Outcome of `inode_linktarget`: returned node and the out-parameter cells
after the call. -/
structure LRes where
  node : Option Inode
  peerOut : Option (Option Inode)
  parentOut : Option (Option Inode)
  relOut : Option (List Nat)

mutual

/-- The `while (node != NULL)` loop of `inode_search_nofollow`, with state
`name`, `node`, `left`, `above` and the relpath cell `rel`. -/
def searchLoop (root : Option Inode) : Nat → List Nat → Option Inode →
    Option Inode → Option Inode → Option (List Nat) → Option LoopOut
  | 0, _, _, _, _, _ => none
  | fuel + 1, name, node, left, above, rel =>
    match node with
    | none => some ⟨none, name, left, above, rel⟩
    | some n =>
      let result := inode_compare (some name) n
      if result < 0 then
        some ⟨none, name, left, above, rel⟩
      else if 0 < result then
        searchLoop root fuel name n.i_peer (some n) above rel
      else
        let name2 := inode_nextname name
        if name2 = [] ∨ n.isMountpt then
          some ⟨some n, name2, left, above, rel.map fun _ => name2⟩
        else
          match inode_linktarget root fuel (some n) none none rel with
          | none => none
          | some lres =>
            match lres.node with
            | none => some ⟨some n, name2, left, above, lres.relOut⟩
            | some m =>
              if ibeq m n then
                searchLoop root fuel name2 n.i_child none (some n) lres.relOut
              else if m.isMountpt then
                some ⟨some m, name2, none, none, lres.relOut.map fun _ => name2⟩
              else
                searchLoop root fuel name2 m.i_child none (some m) lres.relOut

/-- Embedding of `inode_search_nofollow(path, peer, parent, relpath)` with
CONFIG_PSEUDOFS_SOFTLINKS: skip the leading slash, run the walker loop from
`g_root_inode`, then store `left`, `above` and the final cursor. -/
def inode_search_nofollow (root : Option Inode) : Nat → List Nat →
    Option (Option Inode) → Option (Option Inode) → Option (List Nat) →
    Option SRes
  | 0, _, _, _, _ => none
  | fuel + 1, path, pc, qc, rc =>
    match searchLoop root fuel (path.drop 1) root none none rc with
    | none => none
    | some o => some ⟨o.node, o.name, pc.map fun _ => o.left,
                      qc.map fun _ => o.above, o.rel⟩

/-- Embedding of `inode_linktarget(node, peer, parent, relpath)`. -/
def inode_linktarget (root : Option Inode) : Nat → Option Inode →
    Option (Option Inode) → Option (Option Inode) → Option (List Nat) →
    Option LRes
  | 0, _, _, _, _ => none
  | fuel + 1, node, pc, qc, rc => linktargetLoop root fuel node 0 pc qc rc

/-- The `while (node != NULL && INODE_IS_SOFTLINK(node))` loop of
`inode_linktarget`, with the `count` local. -/
def linktargetLoop (root : Option Inode) : Nat → Option Inode → Nat →
    Option (Option Inode) → Option (Option Inode) → Option (List Nat) →
    Option LRes
  | 0, _, _, _, _, _ => none
  | fuel + 1, node, count, pc, qc, rc =>
    match node with
    | none => some ⟨none, pc, qc, rc⟩
    | some n =>
      if n.isSoftlink then
        match inode_search_nofollow root fuel n.i_link pc qc rc with
        | none => none
        | some res =>
          match res.node with
          | none =>
            if SYMLOOP_MAX < count + 1 then
              some ⟨none, res.peerOut, res.parentOut, res.relOut⟩
            else
              linktargetLoop root fuel none (count + 1)
                res.peerOut res.parentOut res.relOut
          | some m =>
            linktargetLoop root fuel (some m) count
              res.peerOut res.parentOut res.relOut
      else some ⟨some n, pc, qc, rc⟩

end

/-- Embedding of `inode_search(path, peer, parent, relpath)` with
CONFIG_PSEUDOFS_SOFTLINKS: a no-follow walk, then dereference the terminal
node if it is a softlink. -/
def inode_search (root : Option Inode) : Nat → List Nat →
    Option (Option Inode) → Option (Option Inode) → Option (List Nat) →
    Option SRes
  | 0, _, _, _, _ => none
  | fuel + 1, path, pc, qc, rc =>
    match inode_search_nofollow root fuel path pc qc rc with
    | none => none
    | some res =>
      match res.node with
      | some n =>
        if n.isSoftlink then
          match inode_linktarget root fuel (some n)
              res.peerOut res.parentOut res.relOut with
          | none => none
          | some l => some ⟨l.node, res.path, l.peerOut, l.parentOut, l.relOut⟩
        else some res
      | none => some res

/-- Return value `OK`. -/
def OK : Int := 0

/-- Errno value `EINVAL`. -/
def EINVAL : Int := 22

/-- Embedding of `pthread_condattr_init(attr)`: the attr pointer is modelled as an
optional cell; the result is the returned int paired with the cell contents
after the call. -/
def pthread_condattr_init (attr : Option Int) : Int × Option Int :=
  match attr with
  | none => (EINVAL, none)
  | some _ => (OK, some 0)

/-- Plain three-way unsigned lexicographic comparison of two NUL-free byte
strings; reasoning helper relating `cmp_core` to a symmetric comparison. -/
def strCmp : List Nat → List Nat → Int
  | [], [] => 0
  | [], _ :: _ => -1
  | _ :: _, [] => 1
  | f :: ftail, n :: ntail =>
    if n < f then 1 else if f < n then -1 else strCmp ftail ntail

/-- The path segment denoted by a cursor: its bytes up to the first slash or
the end of the string. -/
def segOf : List Nat → List Nat
  | [] => []
  | c :: rest => if c = slash then [] else c :: segOf rest

/-- Test whether a cursor stands at a segment terminator (NUL or slash). -/
def segEnded : List Nat → Bool
  | [] => true
  | c :: _ => c = slash

/-- Conjunction of a predicate over every node of a tree or forest,
following both child and peer edges. -/
def treeAll (p : Inode → Bool) : Option Inode → Bool
  | none => true
  | some (.mk nm kd c pr) => p (.mk nm kd c pr) && treeAll p c && treeAll p pr

/-- The sibling-ordering invariant over a whole tree: every node has a
name, and along every peer chain names are strictly ascending in the
unsigned byte-wise order. -/
def treeSorted : Option Inode → Bool
  | none => true
  | some (.mk nm _kd c pr) =>
    (match nm with
     | some _ => true
     | none => false) &&
    (match pr with
     | none => true
     | some y =>
       match nm, y.i_name with
       | some a, some b => strCmp a b == -1
       | _, _ => false) &&
    treeSorted c && treeSorted pr

/-- Membership of a node in a sibling (peer) chain. -/
inductive InChain (m : Inode) : Option Inode → Prop where
  | head : InChain m (some m)
  | tail (x : Inode) : InChain m x.i_peer → InChain m (some x)

/-- Resolution of a proper prefix of a path to a mountpoint node by pure
segment matching: each consumed segment matches a node of the current
sibling chain, intermediate matched nodes are neither mountpoints nor
softlinks, and the final matched node is a mountpoint with a non-empty
path suffix remaining. -/
inductive MpResolve : Option Inode → List Nat → Inode → List Nat → Prop where
  | found (level : Option Inode) (name : List Nat) (m : Inode) :
      InChain m level → inode_compare (some name) m = 0 →
      m.isMountpt = true → inode_nextname name ≠ [] →
      MpResolve level name m (inode_nextname name)
  | descend (level : Option Inode) (name : List Nat) (x m : Inode)
      (rest : List Nat) :
      InChain x level → inode_compare (some name) x = 0 →
      x.isMountpt = false → x.isSoftlink = false →
      inode_nextname name ≠ [] →
      MpResolve x.i_child (inode_nextname name) m rest →
      MpResolve level name m rest

/-- Node `b` of the cyclic-softlink tree T3: a softlink with target "/a". -/
def nodeB : Inode := .mk (some [98]) (.softlink [47, 97]) none none

/-- Node `a` of the cyclic-softlink tree T3: a softlink with target "/b",
with peer `b`. -/
def nodeA : Inode := .mk (some [97]) (.softlink [47, 98]) none (some nodeB)

/-- Root of the cyclic-softlink tree T3 (spec scenario: `a -> /b`,
`b -> /a`). -/
def rootT3 : Option Inode := some nodeA

/-- A one-node witness tree: a single top-level mountpoint named "m". -/
def wMnt : Inode := .mk (some [109]) .mountpt none none

/-- Root of the one-mountpoint witness tree. -/
def wMntRoot : Option Inode := some wMnt

/-- A one-node witness tree: a single plain file node named "a". -/
def wPlain : Inode := .mk (some [97]) .normal none none

/-- Root of the one-plain-node witness tree. -/
def wPlainRoot : Option Inode := some wPlain


/-- Predicate on a node: its name is present and non-empty (spec invariant
2, "no node has an empty name"). -/
def hasNonemptyName (n : Inode) : Bool :=
  match n.i_name with
  | some (_ :: _) => true
  | _ => false


theorem segOf_no_slash : ∀ l : List Nat, slash ∉ l → segOf l = l := by
  intro l h
  induction l with
  | nil => rfl
  | cons c rest ih =>
    have hc : c ≠ slash := fun he => h (he ▸ List.mem_cons_self c rest)
    have hr : slash ∉ rest := fun hm => h (List.mem_cons_of_mem c hm)
    simp [segOf, hc, ih hr]

theorem slash_not_mem_segOf : ∀ l : List Nat, slash ∉ segOf l := by
  intro l
  induction l with
  | nil => simp [segOf]
  | cons c rest ih =>
    by_cases hc : c = slash
    · simp [segOf, hc]
    · simp [segOf, hc]
      exact ⟨fun he => hc he.symm, ih⟩

theorem cmp_core_eq_strCmp : ∀ f n : List Nat, cmp_core f n = strCmp (segOf f) n := by
  intro f
  induction f with
  | nil => intro n; cases n <;> rfl
  | cons c ftail ih =>
    intro n
    by_cases hc : c = slash
    · subst hc
      cases n <;> simp [cmp_core, segOf, strCmp]
    · cases n with
      | nil => simp [cmp_core, segOf, hc, strCmp]
      | cons b ntail =>
        simp only [cmp_core, segOf, if_neg hc, strCmp]
        by_cases h1 : b < c
        · simp [h1]
        · by_cases h2 : c < b
          · simp [h1, h2]
          · simp [h1, h2, ih ntail]

theorem strCmp_swap : ∀ a b : List Nat, strCmp b a = -strCmp a b := by
  intro a
  induction a with
  | nil => intro b; cases b <;> rfl
  | cons x xs ih =>
    intro b
    cases b with
    | nil => rfl
    | cons y ys =>
      simp only [strCmp]
      rcases Nat.lt_trichotomy x y with h | h | h
      · simp [h, Nat.lt_asymm h, Nat.ne_of_lt h]
      · subst h; simp [Nat.lt_irrefl, ih ys]
      · simp [h, Nat.lt_asymm h]

theorem strCmp_eq_zero : ∀ a b : List Nat, strCmp a b = 0 → a = b := by
  intro a
  induction a with
  | nil => intro b h; cases b with
    | nil => rfl
    | cons y ys => simp [strCmp] at h
  | cons x xs ih =>
    intro b h
    cases b with
    | nil => simp [strCmp] at h
    | cons y ys =>
      simp only [strCmp] at h
      by_cases h1 : y < x
      · simp [h1] at h
      · by_cases h2 : x < y
        · simp [h1, h2] at h
        · have : x = y := Nat.le_antisymm (Nat.le_of_not_lt h1) (Nat.le_of_not_lt h2)
          subst this
          simp [h1, h2] at h
          rw [ih ys h]

theorem strCmp_self : ∀ a : List Nat, strCmp a a = 0 := by
  intro a
  induction a with
  | nil => rfl
  | cons x xs ih => simp [strCmp, ih]

theorem strCmp_trans_neg :
    ∀ a b c : List Nat, strCmp a b = -1 → strCmp b c = -1 → strCmp a c = -1 := by
  intro a
  induction a with
  | nil =>
    intro b c hab hbc
    cases b with
    | nil => exact hbc
    | cons y ys =>
      cases c with
      | nil => simp [strCmp] at hbc
      | cons z zs => rfl
  | cons x xs ih =>
    intro b c hab hbc
    cases b with
    | nil => simp [strCmp] at hab
    | cons y ys =>
      cases c with
      | nil => simp [strCmp] at hbc
      | cons z zs =>
        simp only [strCmp] at hab hbc ⊢
        by_cases h1 : y < x
        · simp [h1] at hab
        · by_cases h2 : z < y
          · simp [h2] at hbc
          · by_cases h3 : x < y
            · -- x < y ≤ z
              have hyz : y ≤ z := Nat.le_of_not_lt h2
              have hxz : x < z := Nat.lt_of_lt_of_le h3 hyz
              simp [Nat.lt_asymm hxz, hxz]
            · have hxy : x = y := Nat.le_antisymm (Nat.le_of_not_lt h1) (Nat.le_of_not_lt h3)
              subst hxy
              simp [h1] at hab
              by_cases h4 : x < z
              · simp [Nat.lt_asymm h4, h4]
              · have hxz : x = z := Nat.le_antisymm (Nat.le_of_not_lt h2) (Nat.le_of_not_lt h4)
                subst hxz
                simp [h2] at hbc
                simp [Nat.lt_irrefl]
                exact ih ys zs hab hbc

theorem cmp_core_append :
    ∀ p f n : List Nat, slash ∉ p → cmp_core (p ++ f) (p ++ n) = cmp_core f n := by
  intro p
  induction p with
  | nil => intro f n _; rfl
  | cons c rest ih =>
    intro f n h
    have hc : c ≠ slash := fun he => h (he ▸ List.mem_cons_self c rest)
    have hr : slash ∉ rest := fun hm => h (List.mem_cons_of_mem c hm)
    simp only [List.cons_append, cmp_core, if_neg hc, Nat.lt_irrefl, if_false]
    exact ih f n hr

/-- C7: `inode_nextname` skips bytes up to the first NUL or slash; when a
slash was found it skips exactly that one slash, so the returned cursor is
either at NUL (the empty suffix) or at the first byte of the next segment,
and consecutive slashes are not coalesced. -/
theorem c7_nextname_segment_advance :
    (∀ l : List Nat, slash ∉ l → inode_nextname l = []) ∧
    (∀ pre post : List Nat, slash ∉ pre →
      inode_nextname (pre ++ slash :: post) = post) := by
  constructor
  · intro l h
    induction l with
    | nil => rfl
    | cons c rest ih =>
      have hc : c ≠ slash := fun he => h (he ▸ List.mem_cons_self c rest)
      have hr : slash ∉ rest := fun hm => h (List.mem_cons_of_mem c hm)
      simp [inode_nextname, hc, ih hr]
  · intro pre post h
    induction pre with
    | nil => simp [inode_nextname]
    | cons c rest ih =>
      have hc : c ≠ slash := fun he => h (he ▸ List.mem_cons_self c rest)
      have hr : slash ∉ rest := fun hm => h (List.mem_cons_of_mem c hm)
      simp [inode_nextname, hc, ih hr]

/-- Witness for C7 at concrete inputs, including adjacent slashes that are
not coalesced. -/
theorem c7_nextname_segment_advance_witness :
    inode_nextname [97, 98] = [] ∧ inode_nextname [97, 47, 47, 98] = [47, 98] :=
  ⟨c7_nextname_segment_advance.1 [97, 98] (by decide),
   c7_nextname_segment_advance.2 [97] [47, 98] (by decide)⟩

/-- C10: `pthread_condattr_init` returns EINVAL and leaves memory unchanged
on a NULL attr; on a non-NULL attr it stores 0 through the pointer and
returns OK; and these are the only two outcomes. -/
theorem c10_pthread_condattr_init_contract :
    pthread_condattr_init none = (EINVAL, none) ∧
    (∀ a : Int, pthread_condattr_init (some a) = (OK, some 0)) ∧
    (∀ x : Option Int, pthread_condattr_init x = (EINVAL, none) ∨
      pthread_condattr_init x = (OK, some 0)) := by
  refine ⟨rfl, fun a => rfl, fun x => ?_⟩
  cases x with
  | none => exact Or.inl rfl
  | some a => exact Or.inr rfl

/-- C2: at the first position where neither the segment nor the node name
has ended and the current bytes differ, `_inode_compare` compares the two
bytes as unsigned values and returns plus or minus one accordingly; in
particular a segment byte of 0x80 or above against an ASCII node-name byte
yields plus one. -/
theorem c2_compare_unsigned_bytes :
    (∀ (p f n : List Nat) (a b : Nat), slash ∉ p → a ≠ slash → a ≠ b →
      cmp_core (p ++ a :: f) (p ++ b :: n) = if b < a then 1 else -1) ∧
    (∀ (p f n : List Nat) (a b : Nat), slash ∉ p → 128 ≤ a → b ≤ 127 →
      cmp_core (p ++ a :: f) (p ++ b :: n) = 1) := by
  have base : ∀ (f n : List Nat) (a b : Nat), a ≠ slash → a ≠ b →
      cmp_core (a :: f) (b :: n) = if b < a then 1 else -1 := by
    intro f n a b ha hab
    simp only [cmp_core, if_neg ha]
    rcases Nat.lt_trichotomy a b with h | h | h
    · simp [Nat.lt_asymm h, h]
    · exact absurd h hab
    · simp [h]
  constructor
  · intro p f n a b hp ha hab
    rw [cmp_core_append p _ _ hp, base f n a b ha hab]
  · intro p f n a b hp ha hb
    have hab : a ≠ b := by omega
    have has : a ≠ slash := by simp only [slash]; omega
    rw [cmp_core_append p _ _ hp, base f n a b has hab]
    simp [show b < a by omega]

/-- Witness for C2: byte 200 in the segment against ASCII byte 65 in the
node name, after the common prefix byte 97. -/
theorem c2_compare_unsigned_bytes_witness :
    cmp_core [97, 200, 99] [97, 65] = (if (65 : Nat) < 200 then 1 else -1) ∧
    cmp_core [97, 200, 99] [97, 65] = 1 :=
  ⟨c2_compare_unsigned_bytes.1 [97] [99] [] 200 65 (by decide) (by decide) (by decide),
   c2_compare_unsigned_bytes.2 [97] [99] [] 200 65 (by decide) (by decide) (by decide)⟩

/-- C4: the sentinel cases of `_inode_compare` (absent node name gives plus
one; absent find name, with the node name present, gives minus one); the
main loop walks both strings in lockstep, treating NUL and slash as equal
end of the find name, and returns 0 when both end simultaneously, plus one
when only the node name ends first, minus one when only the segment ends
first. -/
theorem c4_compare_end_semantics :
    (∀ (f : Option (List Nat)) (nd : Inode), nd.i_name = none →
      inode_compare f nd = 1) ∧
    (∀ (nd : Inode) (nm : List Nat), nd.i_name = some nm →
      inode_compare none nd = -1) ∧
    (∀ p f n : List Nat, slash ∉ p → cmp_core (p ++ f) (p ++ n) = cmp_core f n) ∧
    (∀ f : List Nat, segEnded f = true → cmp_core f [] = 0) ∧
    (∀ f : List Nat, segEnded f = false → cmp_core f [] = 1) ∧
    (∀ (f n : List Nat) (b : Nat), segEnded f = true → cmp_core f (b :: n) = -1) := by
  refine ⟨?_, ?_, cmp_core_append, ?_, ?_, ?_⟩
  · intro f nd h; simp [inode_compare, h]
  · intro nd nm h; simp [inode_compare, h]
  · intro f h
    cases f with
    | nil => rfl
    | cons c rest =>
      simp only [segEnded, decide_eq_true_eq] at h
      simp [cmp_core, h]
  · intro f h
    cases f with
    | nil => simp [segEnded] at h
    | cons c rest =>
      simp only [segEnded, decide_eq_false_iff_not] at h
      simp [cmp_core, h]
  · intro f n b h
    cases f with
    | nil => rfl
    | cons c rest =>
      simp only [segEnded, decide_eq_true_eq] at h
      simp [cmp_core, h]

/-- Witness for C4 at concrete inputs covering the sentinel, lockstep and
all three terminator outcomes. -/
theorem c4_compare_end_semantics_witness :
    inode_compare (some [97]) (Inode.mk none IKind.normal none none) = 1 ∧
    inode_compare none (Inode.mk (some [97]) IKind.normal none none) = -1 ∧
    cmp_core ([97] ++ [98]) ([97] ++ []) = cmp_core [98] [] ∧
    cmp_core [47, 98] [] = 0 ∧
    cmp_core [98] [] = 1 ∧
    cmp_core [47] [98, 99] = -1 :=
  ⟨c4_compare_end_semantics.1 (some [97]) _ rfl,
   c4_compare_end_semantics.2.1 _ [97] rfl,
   c4_compare_end_semantics.2.2.1 [97] [98] [] (by decide),
   c4_compare_end_semantics.2.2.2.1 [47, 98] (by decide),
   c4_compare_end_semantics.2.2.2.2.1 [98] (by decide),
   c4_compare_end_semantics.2.2.2.2.2 [47] [99] 98 (by decide)⟩

/-- C6: on slash-free strings the comparator is anti-symmetric and its
induced strict order is transitive; and a find name compares exactly like
its segment truncated at the first slash (the NUL-slash terminator
equivalence). -/
theorem c6_compare_order :
    (∀ a b : List Nat, slash ∉ a → slash ∉ b → cmp_core a b = -cmp_core b a) ∧
    (∀ a b c : List Nat, slash ∉ a → slash ∉ b → slash ∉ c →
      cmp_core a b = -1 → cmp_core b c = -1 → cmp_core a c = -1) ∧
    (∀ a b : List Nat, cmp_core a b = cmp_core (segOf a) b) := by
  refine ⟨?_, ?_, ?_⟩
  · intro a b ha hb
    rw [cmp_core_eq_strCmp a b, cmp_core_eq_strCmp b a, segOf_no_slash a ha,
      segOf_no_slash b hb, strCmp_swap a b]
    omega
  · intro a b c ha hb hc hab hbc
    rw [cmp_core_eq_strCmp a b, segOf_no_slash a ha] at hab
    rw [cmp_core_eq_strCmp b c, segOf_no_slash b hb] at hbc
    rw [cmp_core_eq_strCmp a c, segOf_no_slash a ha]
    exact strCmp_trans_neg a b c hab hbc
  · intro a b
    rw [cmp_core_eq_strCmp a b, cmp_core_eq_strCmp (segOf a) b,
      segOf_no_slash (segOf a) (slash_not_mem_segOf a)]

/-- Witness for C6 at concrete slash-free strings. -/
theorem c6_compare_order_witness :
    cmp_core [97] [98] = -cmp_core [98] [97] ∧ cmp_core [97] [99] = -1 :=
  ⟨c6_compare_order.1 [97] [98] (by decide) (by decide),
   c6_compare_order.2.1 [97] [98] [99] (by decide) (by decide) (by decide)
     (by decide) (by decide)⟩

/-- C9: `inode_linktarget` on a present node that is not a softlink returns
that node unchanged and writes none of the peer, parent or relpath
out-parameters (the while loop body never runs). -/
theorem c9_linktarget_identity (root : Option Inode) (fuel : Nat) (n : Inode)
    (pc qc : Option (Option Inode)) (rc : Option (List Nat))
    (h : n.isSoftlink = false) :
    inode_linktarget root (fuel + 2) (some n) pc qc rc =
      some ⟨some n, pc, qc, rc⟩ := by
  show linktargetLoop root (fuel + 1) (some n) 0 pc qc rc =
    some ⟨some n, pc, qc, rc⟩
  simp [linktargetLoop, h]

/-- Witness for C9 on a concrete plain node with all out-cells supplied. -/
theorem c9_linktarget_identity_witness :
    wPlain.isSoftlink = false ∧
    inode_linktarget wPlainRoot 2 (some wPlain) (some none) (some none)
      (some [1]) = some ⟨some wPlain, some none, some none, some [1]⟩ :=
  ⟨by decide,
   c9_linktarget_identity wPlainRoot 0 wPlain (some none) (some none)
     (some [1]) (by decide)⟩

/-- C8: on a tree whose nodes all have non-empty names, searching for the
path consisting of exactly one slash yields an absent node: the leading
slash is stripped, the empty segment compares less than the first node
name (or the tree is empty), and the loop exits at once with `left` and
`above` still NULL and the relpath cell untouched. -/
theorem c8_root_path_absent (root : Option Inode) (fuel : Nat)
    (pc qc : Option (Option Inode)) (rc : Option (List Nat))
    (h : treeAll hasNonemptyName root = true) :
    inode_search_nofollow root (fuel + 2) [slash] pc qc rc =
      some ⟨none, [], pc.map fun _ => none, qc.map fun _ => none, rc⟩ := by
  cases root with
  | none => rfl
  | some r =>
    cases r with
    | mk nm kd c pr =>
      simp only [treeAll, Bool.and_eq_true] at h
      obtain ⟨⟨hn, _⟩, _⟩ := h
      match nm, hn with
      | some (_ :: _), _ => rfl
      | none, h0 => exact Bool.noConfusion h0
      | some [], h0 => exact Bool.noConfusion h0

/-- Witness for C8 on the one-plain-node tree with all out-cells
supplied. -/
theorem c8_root_path_absent_witness :
    treeAll hasNonemptyName wPlainRoot = true ∧
    inode_search_nofollow wPlainRoot 2 [slash] (some (some wMnt))
      (some (some wMnt)) (some [1]) =
      some ⟨none, [], some none, some none, some [1]⟩ :=
  ⟨by simp [wPlainRoot, wPlain, treeAll, hasNonemptyName, Inode.i_name],
   c8_root_path_absent wPlainRoot 0 (some (some wMnt)) (some (some wMnt))
     (some [1])
     (by simp [wPlainRoot, wPlain, treeAll, hasNonemptyName, Inode.i_name])⟩

theorem t3_step_a : ∀ g count : Nat,
    linktargetLoop rootT3 (g + 4) (some nodeA) count none none none =
      linktargetLoop rootT3 (g + 3) (some nodeB) count none none none :=
  fun _ _ => rfl

theorem t3_step_b : ∀ g count : Nat,
    linktargetLoop rootT3 (g + 3) (some nodeB) count none none none =
      linktargetLoop rootT3 (g + 2) (some nodeA) count none none none :=
  fun _ _ => rfl

theorem t3_ltloop_diverges : ∀ fuel count : Nat,
    linktargetLoop rootT3 fuel (some nodeA) count none none none = none ∧
    linktargetLoop rootT3 fuel (some nodeB) count none none none = none := by
  intro fuel
  induction fuel using Nat.strong_induction_on with
  | _ fuel ih =>
    intro count
    match fuel with
    | 0 => exact ⟨rfl, rfl⟩
    | 1 => exact ⟨rfl, rfl⟩
    | 2 => exact ⟨rfl, rfl⟩
    | 3 => exact ⟨rfl, (t3_step_b 0 count).trans ((ih 2 (by omega) count).1)⟩
    | (g + 4) =>
      exact ⟨(t3_step_a g count).trans ((ih (g + 3) (by omega) count).2),
             (t3_step_b (g + 1) count).trans ((ih (g + 3) (by omega) count).1)⟩

/-- C1: the claimed bound fails and the code contradicts its own comment
("an infinite loop is avoided only by the loop count").  On the two-node
softlink cycle `a -> /b`, `b -> /a` (both targets present),
`inode_linktarget(a)` and `search("/a")` never terminate: every inner
no-follow lookup succeeds, returning the terminal softlink while the loop
counter stays at 0, so the run exhausts any amount of fuel.  Hence neither
call returns (absent or otherwise) within `SYMLOOP_MAX + k` iterations or
any other bound. -/
theorem c1_cyclic_softlinks_diverge : ∀ fuel : Nat,
    inode_linktarget rootT3 fuel (some nodeA) none none none = none ∧
    inode_search rootT3 fuel [47, 97] none none none = none := by
  intro fuel
  constructor
  · match fuel with
    | 0 => rfl
    | f + 1 => exact (t3_ltloop_diverges f 0).1
  · match fuel with
    | 0 => rfl
    | 1 => rfl
    | 2 => rfl
    | (g + 3) =>
      have h : inode_linktarget rootT3 (g + 2) (some nodeA) none none none = none :=
        (t3_ltloop_diverges (g + 1) 0).1
      calc inode_search rootT3 (g + 3) [47, 97] none none none
          = (match inode_linktarget rootT3 (g + 2) (some nodeA) none none none with
             | none => none
             | some l => some (SRes.mk l.node [] l.peerOut l.parentOut l.relOut)) := rfl
        _ = none := by rw [h]

theorem treeAll_some (p : Inode → Bool) (n : Inode)
    (h : treeAll p (some n) = true) :
    p n = true ∧ treeAll p n.i_child = true ∧ treeAll p n.i_peer = true := by
  cases n with
  | mk nm kd c pr =>
    simp only [treeAll, Bool.and_eq_true] at h
    exact ⟨h.1.1, h.1.2, h.2⟩

theorem search_closure (p : Inode → Bool) (root : Option Inode)
    (hroot : treeAll p root = true) : ∀ fuel : Nat,
    (∀ name node left above rc o,
      treeAll p node = true →
      searchLoop root fuel name node left above rc = some o →
      ∀ m, o.node = some m → treeAll p (some m) = true) ∧
    (∀ path pc qc rc res,
      inode_search_nofollow root fuel path pc qc rc = some res →
      ∀ m, res.node = some m → treeAll p (some m) = true) ∧
    (∀ node pc qc rc l,
      treeAll p node = true →
      inode_linktarget root fuel node pc qc rc = some l →
      ∀ m, l.node = some m → treeAll p (some m) = true) ∧
    (∀ node count pc qc rc l,
      treeAll p node = true →
      linktargetLoop root fuel node count pc qc rc = some l →
      ∀ m, l.node = some m → treeAll p (some m) = true) := by
  intro fuel
  induction fuel with
  | zero =>
    refine ⟨?_, ?_, ?_, ?_⟩
    · intro name node left above rc o _ h
      exact Option.noConfusion h
    · intro path pc qc rc res h
      exact Option.noConfusion h
    · intro node pc qc rc l _ h
      exact Option.noConfusion h
    · intro node count pc qc rc l _ h
      exact Option.noConfusion h
  | succ fuel ih =>
    refine ⟨?_, ?_, ?_, ?_⟩
    · -- searchLoop
      intro name node left above rc o hnode h
      cases node with
      | none =>
        simp only [searchLoop] at h
        cases h
        intro m hm
        exact Option.noConfusion hm
      | some n =>
        have hch := treeAll_some p n hnode
        simp only [searchLoop] at h
        split at h
        · cases h
          intro m hm
          exact Option.noConfusion hm
        · split at h
          · exact ih.1 name n.i_peer (some n) above rc o hch.2.2 h
          · split at h
            · cases h
              intro m hm
              cases hm
              exact hnode
            · split at h
              · exact Option.noConfusion h
              · rename_i lres heq
                have hl := ih.2.2.1 (some n) none none rc lres hnode heq
                split at h
                · cases h
                  intro m hm
                  cases hm
                  exact hnode
                · rename_i m2 hm2
                  split at h
                  · exact ih.1 (inode_nextname name) n.i_child none (some n)
                      lres.relOut o hch.2.1 h
                  · split at h
                    · cases h
                      intro m hm
                      cases hm
                      exact hl m2 hm2
                    · have hm2t := hl m2 hm2
                      exact ih.1 (inode_nextname name) m2.i_child none (some m2)
                        lres.relOut o (treeAll_some p m2 hm2t).2.1 h
    · -- inode_search_nofollow
      intro path pc qc rc res h
      simp only [inode_search_nofollow] at h
      split at h
      · exact Option.noConfusion h
      · rename_i o heq
        cases h
        intro m hm
        exact ih.1 (path.drop 1) root none none rc o hroot heq m hm
    · -- inode_linktarget
      intro node pc qc rc l hnode h
      exact ih.2.2.2 node 0 pc qc rc l hnode h
    · -- linktargetLoop
      intro node count pc qc rc l hnode h
      cases node with
      | none =>
        simp only [linktargetLoop] at h
        cases h
        intro m hm
        exact Option.noConfusion hm
      | some n =>
        simp only [linktargetLoop] at h
        split at h
        · split at h
          · exact Option.noConfusion h
          · rename_i res heq
            have hres := ih.2.1 n.i_link pc qc rc res heq
            split at h
            · split at h
              · cases h
                intro m hm
                exact Option.noConfusion hm
              · exact ih.2.2.2 none (count + 1) res.peerOut res.parentOut
                  res.relOut l (by simp [treeAll]) h
            · rename_i m2 hm2
              exact ih.2.2.2 (some m2) count res.peerOut res.parentOut
                res.relOut l (hres m2 hm2) h
        · cases h
          intro m hm
          cases hm
          exact hnode

/-- C5: on a tree with no softlink and no mountpoint nodes, `inode_search`
and `inode_search_nofollow` return identical results for all inputs: the
same node-or-none, the same final path cursor, and the same values in the
peer, parent and relpath cells.  The single extra unit of fuel on the
`inode_search` side pays for the wrapper function's own entry step and is
an artifact of the fuel bookkeeping, not of the algorithms. -/
theorem c5_search_eq_nofollow (root : Option Inode) (fuel : Nat)
    (path : List Nat) (pc qc : Option (Option Inode)) (rc : Option (List Nat))
    (hsoft : treeAll (fun n => !n.isSoftlink) root = true)
    (_hmnt : treeAll (fun n => !n.isMountpt) root = true) :
    inode_search root (fuel + 1) path pc qc rc =
      inode_search_nofollow root fuel path pc qc rc := by
  have hclos := (search_closure (fun n => !n.isSoftlink) root hsoft fuel).2.1
  simp only [inode_search]
  rcases hres : inode_search_nofollow root fuel path pc qc rc with _ | res
  · rfl
  · rcases hn : res.node with _ | n
    · simp [hn]
    · have hns := (treeAll_some _ n (hclos path pc qc rc res hres n hn)).1
      simp only [Bool.not_eq_true'] at hns
      simp [hn, hns]

/-- Witness for C5 on the one-plain-node tree. -/
theorem c5_search_eq_nofollow_witness :
    inode_search wPlainRoot 6 [47, 97] (some none) (some none) (some []) =
      inode_search_nofollow wPlainRoot 5 [47, 97] (some none) (some none) (some []) :=
  c5_search_eq_nofollow wPlainRoot 5 [47, 97] (some none) (some none) (some [])
    (by simp [wPlainRoot, wPlain, treeAll, Inode.isSoftlink, Inode.kind])
    (by simp [wPlainRoot, wPlain, treeAll, Inode.isMountpt, Inode.kind])

theorem linktarget_not_softlink (root : Option Inode) (fuel : Nat) (n : Inode)
    (pc qc : Option (Option Inode)) (rc : Option (List Nat))
    (h : n.isSoftlink = false) :
    inode_linktarget root (fuel + 2) (some n) pc qc rc =
      some ⟨some n, pc, qc, rc⟩ := by
  show linktargetLoop root (fuel + 1) (some n) 0 pc qc rc =
    some ⟨some n, pc, qc, rc⟩
  simp [linktargetLoop, h]

theorem ibeq_refl_aux : ∀ s : Nat, ∀ n : Inode, sizeOf n ≤ s → ibeq n n = true := by
  intro s
  induction s with
  | zero =>
    intro n h
    cases n with
    | mk nm kd c pr => simp [Inode.mk.sizeOf_spec] at h
  | succ s ih =>
    intro n h
    cases n with
    | mk nm kd c pr =>
      rw [ibeq.eq_def]
      simp only [Bool.and_eq_true, decide_eq_true_eq]
      have hsz := Inode.mk.sizeOf_spec nm kd c pr
      refine ⟨⟨⟨trivial, trivial⟩, ?_⟩, ?_⟩
      · cases c with
        | none => rfl
        | some a =>
          refine ih a ?_
          have : sizeOf (some a) = 1 + sizeOf a := by simp
          omega
      · cases pr with
        | none => rfl
        | some a =>
          refine ih a ?_
          have : sizeOf (some a) = 1 + sizeOf a := by simp
          omega

theorem ibeq_refl (n : Inode) : ibeq n n = true :=
  ibeq_refl_aux (sizeOf n) n (Nat.le_refl _)

theorem searchLoop_skip (root : Option Inode) (fuel : Nat) (name : List Nat)
    (n : Inode) (left above : Option Inode) (rc : Option (List Nat))
    (hcmp : inode_compare (some name) n = 1) :
    searchLoop root (fuel + 1) name (some n) left above rc =
      searchLoop root fuel name n.i_peer (some n) above rc := by
  conv_lhs => rw [searchLoop]
  simp [hcmp]

theorem searchLoop_hit (root : Option Inode) (fuel : Nat) (name : List Nat)
    (n : Inode) (left above : Option Inode) (rc : Option (List Nat))
    (hcmp : inode_compare (some name) n = 0)
    (hstop : inode_nextname name = [] ∨ n.isMountpt = true) :
    searchLoop root (fuel + 1) name (some n) left above rc =
      some ⟨some n, inode_nextname name, left, above,
        rc.map fun _ => inode_nextname name⟩ := by
  conv_lhs => rw [searchLoop]
  simp [hcmp, hstop]

theorem searchLoop_descend (root : Option Inode) (g : Nat) (name : List Nat)
    (n : Inode) (left above : Option Inode) (rc : Option (List Nat))
    (hcmp : inode_compare (some name) n = 0)
    (hne : inode_nextname name ≠ [])
    (hmp : n.isMountpt = false) (hsl : n.isSoftlink = false) :
    searchLoop root (g + 3) name (some n) left above rc =
      searchLoop root (g + 2) (inode_nextname name) n.i_child none (some n) rc := by
  have hlt := linktarget_not_softlink root g n none none rc hsl
  conv_lhs => rw [searchLoop]
  simp only [hcmp, hne, hmp, hlt, ibeq_refl]
  norm_num

theorem searchLoop_descend_small (root : Option Inode) (name : List Nat)
    (n : Inode) (left above : Option Inode) (rc : Option (List Nat))
    (hcmp : inode_compare (some name) n = 0)
    (hne : inode_nextname name ≠ []) (hmp : n.isMountpt = false) :
    searchLoop root 1 name (some n) left above rc = none ∧
    searchLoop root 2 name (some n) left above rc = none := by
  constructor <;>
  · conv_lhs => rw [searchLoop]
    simp [hcmp, hne, hmp, inode_linktarget, linktargetLoop]

theorem treeSorted_facts (n : Inode) (h : treeSorted (some n) = true) :
    (∃ nm, n.i_name = some nm) ∧ treeSorted n.i_child = true ∧
      treeSorted n.i_peer = true := by
  cases n with
  | mk nm kd c pr =>
    rw [treeSorted.eq_def] at h
    simp only [Bool.and_eq_true] at h
    obtain ⟨⟨⟨h1, _⟩, h3⟩, h4⟩ := h
    refine ⟨?_, h3, h4⟩
    cases nm with
    | none => exact Bool.noConfusion h1
    | some a => exact ⟨a, rfl⟩

theorem treeSorted_link (n y : Inode) (h : treeSorted (some n) = true)
    (hp : n.i_peer = some y) :
    ∃ a b, n.i_name = some a ∧ y.i_name = some b ∧ strCmp a b = -1 := by
  cases n with
  | mk nm kd c pr =>
    simp only [Inode.i_peer] at hp
    subst hp
    rw [treeSorted.eq_def] at h
    simp only [Bool.and_eq_true] at h
    obtain ⟨⟨⟨h1, h2⟩, _⟩, _⟩ := h
    cases nm with
    | none => exact Bool.noConfusion h1
    | some a =>
      rcases hy : y.i_name with _ | b
      · rw [hy] at h2; exact Bool.noConfusion h2
      · rw [hy] at h2
        simp only [beq_iff_eq] at h2
        exact ⟨a, b, rfl, rfl, h2⟩

theorem inChain_sorted (m : Inode) : ∀ lvl, InChain m lvl →
    treeSorted lvl = true → treeSorted (some m) = true := by
  intro lvl h
  induction h with
  | head => exact fun hs => hs
  | tail x hx ih => exact fun hs => ih (treeSorted_facts x hs).2.2

theorem inChain_lt (m : Inode) : ∀ lvl, InChain m lvl →
    ∀ y : Inode, y.i_peer = lvl → treeSorted (some y) = true →
    ∃ a b, y.i_name = some a ∧ m.i_name = some b ∧ strCmp a b = -1 := by
  intro lvl h
  induction h with
  | head =>
    intro y hp hs
    exact treeSorted_link y m hs hp
  | tail x hx ih =>
    intro y hp hs
    obtain ⟨a, b, ha, hb, hab⟩ := treeSorted_link y x hs hp
    have hsx : treeSorted (some x) = true := by
      have h2 := (treeSorted_facts y hs).2.2
      rw [hp] at h2
      exact h2
    obtain ⟨b2, cc, hb2, hcc, hbc⟩ := ih x rfl hsx
    rw [hb] at hb2
    injection hb2 with hbe
    subst hbe
    exact ⟨a, cc, ha, hcc, strCmp_trans_neg a b cc hab hbc⟩

theorem scan_all (root : Option Inode) (name : List Nat) (x : Inode)
    (above : Option Inode) (rc : Option (List Nat)) (P : LoopOut → Prop)
    (nmx : List Nat) (hx : x.i_name = some nmx) (hseg : segOf name = nmx)
    (hcont : ∀ left fuel o,
      searchLoop root fuel name (some x) left above rc = some o → P o) :
    ∀ lvl, InChain x lvl → treeSorted lvl = true →
      ∀ left fuel o, searchLoop root fuel name lvl left above rc = some o →
        P o := by
  intro lvl hch
  induction hch with
  | head => intro _ left fuel o h; exact hcont left fuel o h
  | tail y hy ih =>
    intro hs left fuel o h
    obtain ⟨a, b, ha, hb, hab⟩ := inChain_lt x y.i_peer hy y rfl hs
    have hbe : b = nmx := by
      rw [hx] at hb
      injection hb with he
      exact he.symm
    subst hbe
    have hcmp : inode_compare (some name) y = 1 := by
      simp only [inode_compare, ha]
      rw [cmp_core_eq_strCmp, hseg]
      have hsw := strCmp_swap b a
      omega
    cases fuel with
    | zero => exact Option.noConfusion h
    | succ fuel =>
      rw [searchLoop_skip root fuel name y left above rc hcmp] at h
      exact ih (treeSorted_facts y hs).2.2 (some y) fuel o h

theorem scan_ex (root : Option Inode) (name : List Nat) (x : Inode)
    (above : Option Inode) (rc : Option (List Nat)) (P : LoopOut → Prop)
    (nmx : List Nat) (hx : x.i_name = some nmx) (hseg : segOf name = nmx)
    (hcont : ∀ left, ∃ f0, ∀ g, ∃ o,
      searchLoop root (f0 + g) name (some x) left above rc = some o ∧ P o) :
    ∀ lvl, InChain x lvl → treeSorted lvl = true →
      ∀ left, ∃ f0, ∀ g, ∃ o,
        searchLoop root (f0 + g) name lvl left above rc = some o ∧ P o := by
  intro lvl hch
  induction hch with
  | head => intro _ left; exact hcont left
  | tail y hy ih =>
    intro hs left
    obtain ⟨a, b, ha, hb, hab⟩ := inChain_lt x y.i_peer hy y rfl hs
    have hbe : b = nmx := by
      rw [hx] at hb
      injection hb with he
      exact he.symm
    subst hbe
    have hcmp : inode_compare (some name) y = 1 := by
      simp only [inode_compare, ha]
      rw [cmp_core_eq_strCmp, hseg]
      have hsw := strCmp_swap b a
      omega
    obtain ⟨f0, hf⟩ := ih (treeSorted_facts y hs).2.2 (some y)
    refine ⟨f0 + 1, fun g => ?_⟩
    obtain ⟨o, ho, hPo⟩ := hf g
    refine ⟨o, ?_, hPo⟩
    have h1 : f0 + 1 + g = (f0 + g) + 1 := by omega
    rw [h1, searchLoop_skip root (f0 + g) name y left above rc hcmp]
    exact ho

theorem mpres_sim (root : Option Inode) :
    ∀ (lvl : Option Inode) (name : List Nat) (m : Inode) (rest : List Nat),
    MpResolve lvl name m rest → treeSorted lvl = true →
    ∀ (above : Option Inode) (rc : Option (List Nat)),
      (∀ left fuel o, searchLoop root fuel name lvl left above rc = some o →
        o.node = some m ∧ o.name = rest ∧ o.rel = rc.map fun _ => rest) ∧
      (∀ left, ∃ f0, ∀ g, ∃ o,
        searchLoop root (f0 + g) name lvl left above rc = some o ∧
        o.node = some m ∧ o.name = rest ∧ o.rel = rc.map fun _ => rest) := by
  intro lvl name m rest hres
  induction hres with
  | found level nm2 m2 hch hcmp hmp hne =>
    intro hs above rc
    obtain ⟨nmx, hx⟩ := (treeSorted_facts m2 (inChain_sorted m2 level hch hs)).1
    have hseg : segOf nm2 = nmx := by
      simp only [inode_compare, hx] at hcmp
      rw [cmp_core_eq_strCmp] at hcmp
      exact strCmp_eq_zero _ _ hcmp
    have hcont_all : ∀ left fuel o,
        searchLoop root fuel nm2 (some m2) left above rc = some o →
        o.node = some m2 ∧ o.name = inode_nextname nm2 ∧
          o.rel = rc.map fun _ => inode_nextname nm2 := by
      intro left fuel o h
      cases fuel with
      | zero => exact Option.noConfusion h
      | succ fuel =>
        rw [searchLoop_hit root fuel nm2 m2 left above rc hcmp (Or.inr hmp)] at h
        cases h
        exact ⟨rfl, rfl, rfl⟩
    have hcont_ex : ∀ left, ∃ f0, ∀ g, ∃ o,
        searchLoop root (f0 + g) nm2 (some m2) left above rc = some o ∧
        o.node = some m2 ∧ o.name = inode_nextname nm2 ∧
          o.rel = rc.map fun _ => inode_nextname nm2 := by
      intro left
      refine ⟨1, fun g => ?_⟩
      have h1 : 1 + g = g + 1 := by omega
      rw [h1, searchLoop_hit root g nm2 m2 left above rc hcmp (Or.inr hmp)]
      exact ⟨_, rfl, rfl, rfl, rfl⟩
    exact ⟨scan_all root nm2 m2 above rc _ nmx hx hseg hcont_all level hch hs,
           scan_ex root nm2 m2 above rc _ nmx hx hseg hcont_ex level hch hs⟩
  | descend level nm2 x m2 rest2 hch hcmp hmp hsl hne hrec ih =>
    intro hs above rc
    have hsx := inChain_sorted x level hch hs
    obtain ⟨nmx, hx⟩ := (treeSorted_facts x hsx).1
    have hsChild : treeSorted x.i_child = true := (treeSorted_facts x hsx).2.1
    have hseg : segOf nm2 = nmx := by
      simp only [inode_compare, hx] at hcmp
      rw [cmp_core_eq_strCmp] at hcmp
      exact strCmp_eq_zero _ _ hcmp
    have ihc := ih hsChild (some x) rc
    have hcont_all : ∀ left fuel o,
        searchLoop root fuel nm2 (some x) left above rc = some o →
        o.node = some m2 ∧ o.name = rest2 ∧ o.rel = rc.map fun _ => rest2 := by
      intro left fuel o h
      match fuel, h with
      | 0, h => exact Option.noConfusion h
      | 1, h =>
        rw [(searchLoop_descend_small root nm2 x left above rc hcmp hne hmp).1] at h
        exact Option.noConfusion h
      | 2, h =>
        rw [(searchLoop_descend_small root nm2 x left above rc hcmp hne hmp).2] at h
        exact Option.noConfusion h
      | (g + 3), h =>
        rw [searchLoop_descend root g nm2 x left above rc hcmp hne hmp hsl] at h
        exact ihc.1 none (g + 2) o h
    have hcont_ex : ∀ left, ∃ f0, ∀ g, ∃ o,
        searchLoop root (f0 + g) nm2 (some x) left above rc = some o ∧
        o.node = some m2 ∧ o.name = rest2 ∧ o.rel = rc.map fun _ => rest2 := by
      intro left
      obtain ⟨f0, hf⟩ := ihc.2 none
      refine ⟨f0 + 3, fun g => ?_⟩
      obtain ⟨o, ho, hPo⟩ := hf (g + 2)
      refine ⟨o, ?_, hPo⟩
      have h1 : f0 + 3 + g = (f0 + g) + 3 := by omega
      rw [h1, searchLoop_descend root (f0 + g) nm2 x left above rc hcmp hne hmp hsl]
      have h2 : f0 + g + 2 = f0 + (g + 2) := by omega
      rw [h2]
      exact ho
    exact ⟨scan_all root nm2 x above rc _ nmx hx hseg hcont_all level hch hs,
           scan_ex root nm2 x above rc _ nmx hx hseg hcont_ex level hch hs⟩

/-- C3: on a tree satisfying the sibling-ordering invariant, whenever a
proper prefix of an absolute path resolves by pure segment matching (no
softlink jump) to a mountpoint node `m`, `inode_search_nofollow` returns
`m`, leaves the path cursor at the un-consumed suffix (whose leading
segment carries no leading slash, the slash having been consumed by
`inode_nextname`), and, when the relpath cell is supplied, stores that
suffix into it.  Stated both for every terminating run and as the
existence of a terminating run. -/
theorem c3_mountpoint_absorption (root : Option Inode) (path : List Nat)
    (m : Inode) (rest : List Nat) (pc qc : Option (Option Inode))
    (rc : Option (List Nat))
    (hsorted : treeSorted root = true)
    (hres : MpResolve root (path.drop 1) m rest) :
    (∀ fuel res, inode_search_nofollow root fuel path pc qc rc = some res →
      res.node = some m ∧ res.path = rest ∧
        res.relOut = rc.map fun _ => rest) ∧
    (∃ fuel res, inode_search_nofollow root fuel path pc qc rc = some res ∧
      res.node = some m ∧ res.path = rest ∧
        res.relOut = rc.map fun _ => rest) := by
  have hsim := mpres_sim root root (path.drop 1) m rest hres hsorted none rc
  constructor
  · intro fuel res h
    cases fuel with
    | zero => exact Option.noConfusion h
    | succ fuel =>
      simp only [inode_search_nofollow] at h
      rcases hloop : searchLoop root fuel (path.drop 1) root none none rc
        with _ | o
      · rw [hloop] at h; exact Option.noConfusion h
      · rw [hloop] at h
        obtain ⟨h1, h2, h3⟩ := hsim.1 none fuel o hloop
        cases h
        exact ⟨h1, h2, h3⟩
  · obtain ⟨f0, hf⟩ := hsim.2 none
    obtain ⟨o, ho, h1, h2, h3⟩ := hf 0
    rw [Nat.add_zero] at ho
    refine ⟨f0 + 1, SRes.mk o.node o.name (pc.map fun _ => o.left)
      (qc.map fun _ => o.above) o.rel, ?_, h1, h2, h3⟩
    simp only [inode_search_nofollow]
    rw [ho]

/-- Witness for C3: the one-mountpoint tree, path "/m/x", relpath cell
supplied. -/
theorem c3_mountpoint_absorption_witness :
    ∃ fuel res, inode_search_nofollow wMntRoot fuel [47, 109, 47, 120]
      (some none) (some none) (some [5]) = some res ∧
      res.node = some wMnt ∧ res.path = [120] ∧ res.relOut = some [120] :=
  (c3_mountpoint_absorption wMntRoot [47, 109, 47, 120] wMnt [120]
    (some none) (some none) (some [5])
    (by simp [wMntRoot, wMnt, treeSorted])
    (MpResolve.found (some wMnt) [109, 47, 120] wMnt InChain.head
      (by decide) (by decide) (by decide))).2
